import Mathlib

/-!
Shallow embedding of `bevy_rng` (`src/lib.rs`) together with the parts of its
dependency crates that determine its observable behaviour: the
`Xoshiro256StarStar` generator of `rand_xoshiro` (including `SplitMix64`
seeding and the `SeedableRng` plumbing of `rand_core`) and the `Standard`
float distribution of `rand`.  Machine integers are `Nat` reduced modulo
`2 ^ 64` / `2 ^ 32` (wrapping semantics); IEEE-754 `f32` / `f64` values are
modelled exactly: a finite float is the rational it denotes, rounding is
round-to-nearest-even, and infinities and NaN are explicit constructors.
-/

namespace BevyRng

/-- `u64::rotate_left`: `x` is a 64-bit value, `0 < n < 64`. -/
def rotl64 (x n : ℕ) : ℕ := ((x <<< n) % 2 ^ 64) ||| (x >>> (64 - n))

/-- The state of `rand_xoshiro::Xoshiro256StarStar`: four `u64` words. -/
structure Xoshiro where
  s0 : ℕ
  s1 : ℕ
  s2 : ℕ
  s3 : ℕ
deriving DecidableEq, Repr

/-- `Xoshiro256StarStar::next_u64`: output `rotl(s1 * 5, 7) * 9`, then the
xoshiro256 state transition. -/
def nextU64 (r : Xoshiro) : ℕ × Xoshiro :=
  let result := rotl64 (r.s1 * 5 % 2 ^ 64) 7 * 9 % 2 ^ 64
  let t := r.s1 <<< 17 % 2 ^ 64
  let s2 := r.s2 ^^^ r.s0
  let s3 := r.s3 ^^^ r.s1
  let s1 := r.s1 ^^^ s2
  let s0 := r.s0 ^^^ s3
  let s2t := s2 ^^^ t
  let s3r := rotl64 s3 45
  (result, ⟨s0, s1, s2t, s3r⟩)

/-- `Xoshiro256StarStar::next_u32`: `self.next_u64() as u32` (truncation). -/
def genU32 (r : Xoshiro) : ℕ × Xoshiro :=
  let (v, r') := nextU64 r
  (v % 2 ^ 32, r')

/-- One step of `rand_xoshiro::SplitMix64`: `(output, new state)`. -/
def splitmixNext (s : ℕ) : ℕ × ℕ :=
  let s1 := (s + 0x9e3779b97f4a7c15) % 2 ^ 64
  let z1 := (s1 ^^^ s1 >>> 30) * 0xbf58476d1ce4e5b9 % 2 ^ 64
  let z2 := (z1 ^^^ z1 >>> 27) * 0x94d049bb133111eb % 2 ^ 64
  (z2 ^^^ z2 >>> 31, s1)

/-- The four `u64` outputs a `SplitMix64` seeded with `seed` produces when it
fills a 32-byte seed buffer (`fill_bytes_via_next`, little-endian round-trip
through `read_u64_into`). -/
def splitmixWords (seed : ℕ) : ℕ × ℕ × ℕ × ℕ :=
  let (w0, t1) := splitmixNext seed
  let (w1, t2) := splitmixNext t1
  let (w2, t3) := splitmixNext t2
  let (w3, _) := splitmixNext t3
  (w0, w1, w2, w3)

/-- The value `Xoshiro256StarStar::seed_from_u64 0` takes when its own
all-zero-seed check fails, which it provably does (`splitmixWords 0` is not
all zero, see `splitmixWords_zero_ne_zero` below), so the recursion in
`deal_with_zero_seed!` terminates here. -/
def seedFromU64zeroFallback : Xoshiro :=
  match splitmixWords 0 with
  | (a, b, c, d) => ⟨a, b, c, d⟩

/-- `Xoshiro256StarStar::seed_from_u64` (`from_splitmix!`): run `SplitMix64`
from the seed, fill the 32-byte seed buffer, and pass it to `from_seed`,
whose `deal_with_zero_seed!` check re-enters `seed_from_u64 0` on an
all-zero buffer. -/
def seedFromU64 (n : ℕ) : Xoshiro :=
  match splitmixWords (n % 2 ^ 64) with
  | (a, b, c, d) =>
    if a = 0 ∧ b = 0 ∧ c = 0 ∧ d = 0 then seedFromU64zeroFallback
    else ⟨a, b, c, d⟩

/-- `Xoshiro256StarStar::from_seed` on a 32-byte seed, presented as the four
`u64` words it decodes (little-endian): `deal_with_zero_seed!` diverts an
all-zero seed to `seed_from_u64 0`. -/
def fromSeedWords (a b c d : ℕ) : Xoshiro :=
  if a = 0 ∧ b = 0 ∧ c = 0 ∧ d = 0 then seedFromU64 0
  else ⟨a, b, c, d⟩

/-- `fill_bytes` on a 32-byte buffer: four successive `next_u64` draws
(the little-endian bytes round-trip exactly through `read_u64_into`).
Returns the four words and the advanced generator. -/
def fillWords (r : Xoshiro) : (ℕ × ℕ × ℕ × ℕ) × Xoshiro :=
  let (w0, r1) := nextU64 r
  let (w1, r2) := nextU64 r1
  let (w2, r3) := nextU64 r2
  let (w3, r4) := nextU64 r3
  ((w0, w1, w2, w3), r4)

/-- `RngCore::try_fill_bytes` for `Xoshiro256StarStar`:
`{ self.fill_bytes(dest); Ok(()) }` — it never constructs an `Err`. -/
def tryFillWords (r : Xoshiro) : Except String ((ℕ × ℕ × ℕ × ℕ) × Xoshiro) :=
  Except.ok (fillWords r)

/-- `SeedableRng::from_rng` (default implementation): fill a fresh seed
buffer from the given generator, then `from_seed`.  Returns `Result`. -/
def tryFromRng (r : Xoshiro) : Except String Xoshiro :=
  match tryFillWords r with
  | Except.ok ((a, b, c, d), _) => Except.ok (fromSeedWords a b c d)
  | Except.error e => Except.error e

/-- The (always produced) success value of `tryFromRng`. -/
def fromRng (r : Xoshiro) : Xoshiro :=
  match fillWords r with
  | ((a, b, c, d), _) => fromSeedWords a b c d

/-- `Xoshiro256StarStar::from_entropy`: 32 bytes are read from the operating
system into the seed buffer and passed to `from_seed`.  The entropy bytes are
modelled as the four little-endian `u64` words they decode to. -/
def fromEntropy (e : ℕ × ℕ × ℕ × ℕ) : Xoshiro :=
  match e with
  | (a, b, c, d) => fromSeedWords (a % 2 ^ 64) (b % 2 ^ 64) (c % 2 ^ 64) (d % 2 ^ 64)

/-! ### Exact model of IEEE-754 binary floating point

A finite `f32` / `f64` value is the rational number it denotes; infinities
and NaN are explicit.  `roundFl prec emin ovf` is IEEE round-to-nearest-even
at precision `prec` with minimal (normal) exponent `emin` and overflow
threshold `ovf = 2 ^ (emax + 1)`.  Signed zeros are collapsed to `0`, which
is sound here because no sign-of-zero-observing operation occurs in the
embedded code. -/

/-- An IEEE floating-point datum. -/
inductive Fl where
  | finite (q : ℚ)
  | posInf
  | negInf
  | nan
deriving DecidableEq, Repr

/-- Round a rational to the nearest integer, ties to even. -/
def rne (q : ℚ) : ℤ :=
  if q - ⌊q⌋ < 1 / 2 then ⌊q⌋
  else if 1 / 2 < q - ⌊q⌋ then ⌊q⌋ + 1
  else if 2 ∣ ⌊q⌋ then ⌊q⌋ else ⌊q⌋ + 1

/-- Round a positive rational to the nearest representable significand
multiple: precision `prec` bits, subnormal granularity `2 ^ (emin - prec + 1)`,
unbounded exponent above. -/
def roundPos (prec : ℕ) (emin : ℤ) (x : ℚ) : ℚ :=
  (rne (x / 2 ^ (max (Int.log 2 x) emin - prec + 1)) : ℚ) *
    2 ^ (max (Int.log 2 x) emin - prec + 1)

/-- Full rounding of an exact rational result to a floating-point datum. -/
def roundFl (prec : ℕ) (emin : ℤ) (ovf : ℚ) (x : ℚ) : Fl :=
  if x = 0 then Fl.finite 0
  else if 0 < x then
    if ovf ≤ roundPos prec emin x then Fl.posInf
    else Fl.finite (roundPos prec emin x)
  else
    if ovf ≤ roundPos prec emin (-x) then Fl.negInf
    else Fl.finite (-roundPos prec emin (-x))

/-- Rounding for `f32`: 24-bit precision, normal exponents down to `-126`,
overflow at `2 ^ 128`. -/
def f32round : ℚ → Fl := roundFl 24 (-126) (2 ^ 128)

/-- Rounding for `f64`: 53-bit precision, normal exponents down to `-1022`,
overflow at `2 ^ 1024`. -/
def f64round : ℚ → Fl := roundFl 53 (-1022) (2 ^ 1024)

/-- IEEE multiplication, parameterized by the rounding of the format. -/
def flMul (rnd : ℚ → Fl) (a b : Fl) : Fl :=
  match a, b with
  | Fl.nan, _ => Fl.nan
  | _, Fl.nan => Fl.nan
  | Fl.finite x, Fl.finite y => rnd (x * y)
  | Fl.finite x, Fl.posInf =>
    if x = 0 then Fl.nan else if 0 < x then Fl.posInf else Fl.negInf
  | Fl.finite x, Fl.negInf =>
    if x = 0 then Fl.nan else if 0 < x then Fl.negInf else Fl.posInf
  | Fl.posInf, Fl.finite y =>
    if y = 0 then Fl.nan else if 0 < y then Fl.posInf else Fl.negInf
  | Fl.negInf, Fl.finite y =>
    if y = 0 then Fl.nan else if 0 < y then Fl.negInf else Fl.posInf
  | Fl.posInf, Fl.posInf => Fl.posInf
  | Fl.posInf, Fl.negInf => Fl.negInf
  | Fl.negInf, Fl.posInf => Fl.negInf
  | Fl.negInf, Fl.negInf => Fl.posInf

/-- IEEE addition, parameterized by the rounding of the format. -/
def flAdd (rnd : ℚ → Fl) (a b : Fl) : Fl :=
  match a, b with
  | Fl.nan, _ => Fl.nan
  | _, Fl.nan => Fl.nan
  | Fl.finite x, Fl.finite y => rnd (x + y)
  | Fl.finite _, Fl.posInf => Fl.posInf
  | Fl.finite _, Fl.negInf => Fl.negInf
  | Fl.posInf, Fl.finite _ => Fl.posInf
  | Fl.negInf, Fl.finite _ => Fl.negInf
  | Fl.posInf, Fl.posInf => Fl.posInf
  | Fl.negInf, Fl.negInf => Fl.negInf
  | Fl.posInf, Fl.negInf => Fl.nan
  | Fl.negInf, Fl.posInf => Fl.nan

/-- IEEE negation (exact). -/
def flNeg : Fl → Fl
  | Fl.finite x => Fl.finite (-x)
  | Fl.posInf => Fl.negInf
  | Fl.negInf => Fl.posInf
  | Fl.nan => Fl.nan

/-- IEEE subtraction: `a - b = a + (-b)` (exactly the IEEE semantics). -/
def flSub (rnd : ℚ → Fl) (a b : Fl) : Fl := flAdd rnd a (flNeg b)

/-- IEEE division, parameterized by the rounding of the format. -/
def flDiv (rnd : ℚ → Fl) (a b : Fl) : Fl :=
  match a, b with
  | Fl.nan, _ => Fl.nan
  | _, Fl.nan => Fl.nan
  | Fl.finite x, Fl.finite y =>
    if y = 0 then (if x = 0 then Fl.nan else if 0 < x then Fl.posInf else Fl.negInf)
    else rnd (x / y)
  | Fl.finite _, Fl.posInf => Fl.finite 0
  | Fl.finite _, Fl.negInf => Fl.finite 0
  | Fl.posInf, Fl.finite y => if 0 ≤ y then Fl.posInf else Fl.negInf
  | Fl.negInf, Fl.finite y => if 0 ≤ y then Fl.negInf else Fl.posInf
  | Fl.posInf, Fl.posInf => Fl.nan
  | Fl.posInf, Fl.negInf => Fl.nan
  | Fl.negInf, Fl.posInf => Fl.nan
  | Fl.negInf, Fl.negInf => Fl.nan

/-- Rust `u32 as f32`: round to nearest even. -/
def u32ToF32 (n : ℕ) : Fl := f32round n

/-- Rust `u64 as f64`: round to nearest even. -/
def u64ToF64 (n : ℕ) : Fl := f64round n

/-- Truncation of a rational toward zero. -/
def truncQ (q : ℚ) : ℤ := if 0 ≤ q then ⌊q⌋ else -⌊-q⌋

/-- Rust `f32 as u32` (also `f64 as u64` with the other bound): truncate
toward zero, saturate to `[0, 2^w - 1]`, NaN maps to `0`. -/
def flToUInt (w : ℕ) (a : Fl) : ℕ :=
  match a with
  | Fl.nan => 0
  | Fl.negInf => 0
  | Fl.posInf => 2 ^ w - 1
  | Fl.finite q =>
    if truncQ q < 0 then 0
    else if (2 ^ w - 1 : ℤ) < truncQ q then 2 ^ w - 1
    else (truncQ q).toNat

/-- Rust `f32 as u32`. -/
def f32ToU32 : Fl → ℕ := flToUInt 32

/-- Rust `f64 as u64`. -/
def f64ToU64 : Fl → ℕ := flToUInt 64

/-! ### The `Standard` float distribution of `rand`

`rng.gen::<f32>()` is the multiply-based method: take 24 high bits of a
`next_u32` draw and multiply by `scale = 1.0 / ((1u32 << 24) as f32)`;
`f64` takes 53 high bits of a `next_u64` draw with
`scale = 1.0 / ((1u64 << 53) as f64)`. -/

/-- The constant `1.0 / ((1u32 << 24) as f32)`. -/
def f32scale : Fl := flDiv f32round (Fl.finite 1) (u32ToF32 (1 <<< 24))

/-- The constant `1.0 / ((1u64 << 53) as f64)`. -/
def f64scale : Fl := flDiv f64round (Fl.finite 1) (u64ToF64 (1 <<< 53))

/-- `rng.gen::<f32>()` on a `Xoshiro256StarStar`. -/
def genF32 (r : Xoshiro) : Fl × Xoshiro :=
  let (v, r') := genU32 r
  (flMul f32round f32scale (u32ToF32 (v >>> 8)), r')

/-- `rng.gen::<f64>()` on a `Xoshiro256StarStar`. -/
def genF64 (r : Xoshiro) : Fl × Xoshiro :=
  let (v, r') := nextU64 r
  (flMul f64round f64scale (u64ToF64 (v >>> 11)), r')

/-! ### The `bevy_rng` crate itself (`src/lib.rs`) -/

/-- The `Rng` resource: `pub struct Rng { inner: Xoshiro256StarStar }`. -/
structure Rng where
  inner : Xoshiro
deriving DecidableEq, Repr

namespace Rng

/-- `Rng::next_u32`. -/
def next_u32 (r : Rng) : ℕ × Rng :=
  let (v, i) := genU32 r.inner
  (v, ⟨i⟩)

/-- `Rng::next_u64`. -/
def next_u64 (r : Rng) : ℕ × Rng :=
  let (v, i) := nextU64 r.inner
  (v, ⟨i⟩)

/-- `Rng::next_f32`: `self.inner.gen::<f32>()`. -/
def next_f32 (r : Rng) : Fl × Rng :=
  let (v, i) := genF32 r.inner
  (v, ⟨i⟩)

/-- `Rng::next_f64`: `self.inner.gen::<f64>()`. -/
def next_f64 (r : Rng) : Fl × Rng :=
  let (v, i) := genF64 r.inner
  (v, ⟨i⟩)

/-- `Rng::next_u32_range`: `(self.next_f32() * (max - min) as f32) as u32 + min`.
The `u32` subtraction `max - min` wraps modulo `2 ^ 32` (written
`(max + 2 ^ 32 - min) % 2 ^ 32` on `Nat`), and so does the final addition. -/
def next_u32_range (r : Rng) (min max : ℕ) : ℕ × Rng :=
  let (f, r') := r.next_f32
  ((f32ToU32 (flMul f32round f (u32ToF32 ((max + 2 ^ 32 - min) % 2 ^ 32))) + min) % 2 ^ 32, r')

/-- `Rng::next_u64_range`: `(self.next_f64() * (max - min) as f64) as u64 + min`,
with `u64` wrapping arithmetic. -/
def next_u64_range (r : Rng) (min max : ℕ) : ℕ × Rng :=
  let (f, r') := r.next_f64
  ((f64ToU64 (flMul f64round f (u64ToF64 ((max + 2 ^ 64 - min) % 2 ^ 64))) + min) % 2 ^ 64, r')

/-- `Rng::next_f32_range`: `self.next_f32() * (max - min) + min`. -/
def next_f32_range (r : Rng) (min max : Fl) : Fl × Rng :=
  let (f, r') := r.next_f32
  (flAdd f32round (flMul f32round f (flSub f32round max min)) min, r')

/-- `Rng::next_f64_range`: `self.next_f64() * (max - min) + min`. -/
def next_f64_range (r : Rng) (min max : Fl) : Fl × Rng :=
  let (f, r') := r.next_f64
  (flAdd f64round (flMul f64round f (flSub f64round max min)) min, r')

end Rng

/-- The private `Seed` enum. -/
inductive Seed where
  | Number (n : ℕ)
  | String (s : String)
deriving DecidableEq, Repr

/-- `pub struct RngPlugin { seed: Option<Seed> }`. -/
structure RngPlugin where
  seed : Option Seed
deriving DecidableEq, Repr

/-- `impl From<String> for RngPlugin`. -/
def RngPlugin.fromString (s : String) : RngPlugin := ⟨some (Seed.String s)⟩

/-- `impl From<&str> for RngPlugin` (`seed.to_owned()`). -/
def RngPlugin.fromStr (s : String) : RngPlugin := ⟨some (Seed.String s)⟩

/-- `impl From<u64> for RngPlugin`. -/
def RngPlugin.fromU64 (n : ℕ) : RngPlugin := ⟨some (Seed.Number (n % 2 ^ 64))⟩

/-- `impl Default for RngPlugin` (derived): no seed. -/
def RngPlugin.default : RngPlugin := ⟨none⟩

/-- Modelled from the spec: the text-to-seed hash of `rand_seeder::Seeder`
(`Seeder::from(seed.as_str()).make_rng()`), whose implementation lives in the
`rand_seeder` crate, outside this repository.  Per the spec, "any
well-distributed hash over the string contents is acceptable"; we model it as
a deterministic fold of the UTF-8 code points through the `SplitMix64` mixer
into a 64-bit accumulator, expanded to the 32-byte generator seed and passed
through `from_seed` (the concrete `make_rng` also ends in `from_seed`). -/
def seederMakeRng (s : String) : Xoshiro :=
  let h := s.data.foldl (fun acc c => (splitmixNext ((acc ^^^ c.toNat) % 2 ^ 64)).1) 0x5eed5eed5eed5eed
  match splitmixWords h with
  | (a, b, c, d) => fromSeedWords a b c d

/-- The `RootRng` resource: `struct RootRng { rng: Xoshiro256StarStar }`. -/
structure RootRng where
  rng : Xoshiro
deriving DecidableEq, Repr

/-- `RngPlugin::build`: construct the root generator from the optional seed
and insert it as the `RootRng` resource.  The `None` arm reads operating
system entropy, modelled as an explicit argument. -/
def buildRoot (p : RngPlugin) (entropy : ℕ × ℕ × ℕ × ℕ) : RootRng :=
  match p.seed with
  | some (Seed.String s) => ⟨seederMakeRng s⟩
  | some (Seed.Number n) => ⟨seedFromU64 n⟩
  | none => ⟨fromEntropy entropy⟩

/-- `impl FromWorld for Rng`: if the `RootRng` resource is present, derive the
new handle with `Xoshiro256StarStar::from_rng(rng.rng.clone())` — note the
`clone()` behind the shared `get_resource` borrow: the root resource itself is
left untouched — and `.expect("failed to create rng")` the `Result` (a panic
is modelled as `none`); otherwise fall back to `from_entropy`.  Returns the
produced handle together with the `RootRng` resource as it stands after the
call. -/
def Rng.from_world (root : Option RootRng) (entropy : ℕ × ℕ × ℕ × ℕ) :
    Option Rng × Option RootRng :=
  match root with
  | some rr =>
    (match tryFromRng rr.rng with
     | Except.ok inner => some ⟨inner⟩
     | Except.error _ => none,
     some rr)
  | none => (some ⟨fromEntropy entropy⟩, none)

/-! ### A small operational model of runs

One run = a `RootRng` resource plus the per-system `Local<Rng>` handles that
have been created from it, driven by a list of operations (derive a new
handle via `Rng::from_world`, or draw on an existing handle through the
numeric facade).  This is the vehicle for the determinism and frame-effect
claims. -/

/-- One draw of the numeric facade, with its arguments. -/
inductive DrawKind where
  | u32
  | u64
  | f32
  | f64
  | u32range (min max : ℕ)
  | u64range (min max : ℕ)
  | f32range (min max : Fl)
  | f64range (min max : Fl)
deriving DecidableEq, Repr

/-- An output value of the numeric facade. -/
inductive OutVal where
  | nat (n : ℕ)
  | fl (v : Fl)
deriving DecidableEq, Repr

/-- Apply one facade draw to a handle. -/
def applyDraw (r : Rng) : DrawKind → OutVal × Rng
  | DrawKind.u32 => let (v, r') := r.next_u32; (OutVal.nat v, r')
  | DrawKind.u64 => let (v, r') := r.next_u64; (OutVal.nat v, r')
  | DrawKind.f32 => let (v, r') := r.next_f32; (OutVal.fl v, r')
  | DrawKind.f64 => let (v, r') := r.next_f64; (OutVal.fl v, r')
  | DrawKind.u32range mn mx => let (v, r') := r.next_u32_range mn mx; (OutVal.nat v, r')
  | DrawKind.u64range mn mx => let (v, r') := r.next_u64_range mn mx; (OutVal.nat v, r')
  | DrawKind.f32range mn mx => let (v, r') := r.next_f32_range mn mx; (OutVal.fl v, r')
  | DrawKind.f64range mn mx => let (v, r') := r.next_f64_range mn mx; (OutVal.fl v, r')

/-- The state of a run: the root resource and the handles created so far. -/
structure RunState where
  root : RootRng
  handles : List Rng
deriving DecidableEq, Repr

/-- An operation of a run. -/
inductive Op where
  | derive
  | draw (i : ℕ) (k : DrawKind)
deriving DecidableEq, Repr

/-- Execute one operation.  `derive` goes through `Rng.from_world` with the
root resource present (the entropy fallback is unreachable there and its
argument irrelevant); `draw i` draws on the `i`-th handle if it exists. -/
def stepOp (st : RunState) : Op → RunState × Option OutVal
  | Op.derive =>
    let (h, root') := Rng.from_world (some st.root) (0, 0, 0, 0)
    (⟨root'.getD st.root, st.handles ++ h.toList⟩, none)
  | Op.draw i k =>
    match st.handles.get? i with
    | some r =>
      let (v, r') := applyDraw r k
      (⟨st.root, st.handles.set i r'⟩, some v)
    | none => (st, none)

/-- Execute a list of operations, collecting the outputs. -/
def runOps (st : RunState) : List Op → List (Option OutVal)
  | [] => []
  | op :: ops =>
    let (st', out) := stepOp st op
    out :: runOps st' ops

/-! ### Rounding lemmas -/

/-- `rne` is the identity on integers. -/
theorem rne_intCast (n : ℤ) : rne (n : ℚ) = n := by
  unfold rne
  rw [Int.floor_intCast]
  norm_num

/-- `rne` moves a rational by at most one half upward. -/
theorem rne_le (q : ℚ) : (rne q : ℚ) ≤ q + 1 / 2 := by
  unfold rne
  have h1 : (⌊q⌋ : ℚ) ≤ q := Int.floor_le q
  split_ifs with hlt hgt _
  · linarith
  · push_cast
    linarith
  · linarith
  · push_cast
    linarith [not_lt.mp hgt]

/-- `rne` preserves nonnegativity. -/
theorem rne_nonneg {q : ℚ} (h : 0 ≤ q) : 0 ≤ rne q := by
  unfold rne
  have h0 : 0 ≤ ⌊q⌋ := Int.floor_nonneg.mpr h
  split_ifs <;> omega

/-- `roundPos` preserves nonnegativity. -/
theorem roundPos_nonneg (prec : ℕ) (emin : ℤ) {x : ℚ} (h : 0 ≤ x) :
    0 ≤ roundPos prec emin x := by
  unfold roundPos
  have hulp : (0 : ℚ) < 2 ^ (max (Int.log 2 x) emin - prec + 1) :=
    zpow_pos (by norm_num) _
  have h1 : 0 ≤ x / 2 ^ (max (Int.log 2 x) emin - prec + 1) := div_nonneg h hulp.le
  have h2 : (0 : ℚ) ≤ (rne (x / 2 ^ (max (Int.log 2 x) emin - prec + 1)) : ℚ) := by
    exact_mod_cast rne_nonneg h1
  exact mul_nonneg h2 hulp.le

/-- `roundPos` moves a value up by at most half an ulp. -/
theorem roundPos_le (prec : ℕ) (emin : ℤ) (x : ℚ) :
    roundPos prec emin x ≤ x + 2 ^ (max (Int.log 2 x) emin - prec) := by
  unfold roundPos
  set j : ℤ := max (Int.log 2 x) emin - prec + 1 with hj
  have hpow : (0 : ℚ) < 2 ^ j := zpow_pos (by norm_num) _
  have h := rne_le (x / 2 ^ j)
  have h2 : (rne (x / 2 ^ j) : ℚ) * 2 ^ j ≤ (x / 2 ^ j + 1 / 2) * 2 ^ j :=
    mul_le_mul_of_nonneg_right h hpow.le
  have h3 : (x / 2 ^ j + 1 / 2) * 2 ^ j = x + 2 ^ j / 2 := by
    field_simp
    ring
  have h4 : (2 : ℚ) ^ j / 2 = 2 ^ (j - 1) := by
    rw [zpow_sub₀ (by norm_num : (2 : ℚ) ≠ 0)]
    norm_num
  have h5 : j - 1 = max (Int.log 2 x) emin - prec := by omega
  calc (rne (x / 2 ^ j) : ℚ) * 2 ^ j ≤ (x / 2 ^ j + 1 / 2) * 2 ^ j := h2
    _ = x + 2 ^ j / 2 := h3
    _ = x + 2 ^ (j - 1) := by rw [h4]
    _ = x + 2 ^ (max (Int.log 2 x) emin - prec) := by rw [h5]

/-- `roundPos` is exact on representable values: a significand below
`2 ^ prec` times a power of two no smaller than the subnormal granularity. -/
theorem roundPos_exact (prec : ℕ) (emin : ℤ) (k : ℕ) (e : ℤ)
    (hk0 : 0 < k) (hk : k < 2 ^ prec) (he : emin - prec + 1 ≤ e) :
    roundPos prec emin ((k : ℚ) * 2 ^ e) = (k : ℚ) * 2 ^ e := by
  set x : ℚ := (k : ℚ) * 2 ^ e with hxdef
  have hx : 0 < x := by
    apply mul_pos _ (zpow_pos (by norm_num) e)
    exact_mod_cast hk0
  have hcast : ((2 ^ prec : ℕ) : ℚ) = (2 : ℚ) ^ (prec : ℤ) := by
    push_cast
    rw [zpow_natCast]
  have hlt : x < (2 : ℚ) ^ ((prec : ℤ) + e) := by
    rw [zpow_add₀ (by norm_num : (2 : ℚ) ≠ 0)]
    apply mul_lt_mul_of_pos_right _ (zpow_pos (by norm_num) e)
    rw [← hcast]
    exact_mod_cast hk
  have hlog : Int.log 2 x < (prec : ℤ) + e :=
    (Int.lt_zpow_iff_log_lt (by norm_num) hx).mp hlt
  have hM : max (Int.log 2 x) emin - prec + 1 ≤ e := by
    rcases max_cases (Int.log 2 x) emin with ⟨hmax, _⟩ | ⟨hmax, _⟩ <;> omega
  unfold roundPos
  set j : ℤ := max (Int.log 2 x) emin - prec + 1 with hj
  have hej : 0 ≤ e - j := by omega
  have h2 : (2 : ℚ) ^ (e - j) = (2 : ℚ) ^ (e - j).toNat := by
    rw [← zpow_natCast (2 : ℚ) (e - j).toNat, Int.toNat_of_nonneg hej]
  have hxj : x / 2 ^ j = ((k * 2 ^ (e - j).toNat : ℕ) : ℚ) := by
    push_cast
    rw [hxdef, mul_div_assoc, ← zpow_sub₀ (by norm_num : (2 : ℚ) ≠ 0), h2]
  have hrne : rne (x / 2 ^ j) = ((k * 2 ^ (e - j).toNat : ℕ) : ℤ) := by
    rw [hxj]
    have := rne_intCast ((k * 2 ^ (e - j).toNat : ℕ) : ℤ)
    rwa [Int.cast_natCast] at this
  rw [hrne]
  push_cast
  rw [mul_assoc, ← h2, ← zpow_add₀ (by norm_num : (2 : ℚ) ≠ 0)]
  have hje : e - j + j = e := by omega
  rw [hje]

/-- `roundFl` is the identity on representable values `m * 2 ^ e` with
`|m| < 2 ^ prec`, exponent at least the subnormal granularity, and magnitude
below the overflow threshold. -/
theorem roundFl_exact (prec : ℕ) (emin : ℤ) (ovf : ℚ) (m e : ℤ)
    (hm : m.natAbs < 2 ^ prec) (he : emin - prec + 1 ≤ e)
    (hovf : (m.natAbs : ℚ) * 2 ^ e < ovf) :
    roundFl prec emin ovf ((m : ℚ) * 2 ^ e) = Fl.finite ((m : ℚ) * 2 ^ e) := by
  have hpow : (0 : ℚ) < 2 ^ e := zpow_pos (by norm_num) e
  rcases lt_trichotomy m 0 with hneg | rfl | hpos
  · have hx : (m : ℚ) * 2 ^ e < 0 :=
      mul_neg_of_neg_of_pos (by exact_mod_cast hneg) hpow
    have habs : -((m : ℚ) * 2 ^ e) = (m.natAbs : ℚ) * 2 ^ e := by
      rw [Int.cast_natAbs, abs_of_nonpos hneg.le]
      push_cast
      ring
    have hex : roundPos prec emin (-((m : ℚ) * 2 ^ e)) = -((m : ℚ) * 2 ^ e) := by
      rw [habs]
      exact roundPos_exact prec emin m.natAbs e
        (Int.natAbs_pos.mpr hneg.ne) hm he
    unfold roundFl
    rw [if_neg hx.ne, if_neg (not_lt.mpr hx.le), hex, habs,
      if_neg (not_le.mpr hovf), ← habs, neg_neg]
  · simp [roundFl]
  · have hx : 0 < (m : ℚ) * 2 ^ e :=
      mul_pos (by exact_mod_cast hpos) hpow
    have habs : (m : ℚ) * 2 ^ e = (m.natAbs : ℚ) * 2 ^ e := by
      rw [Int.cast_natAbs, abs_of_nonneg hpos.le]
    have hex : roundPos prec emin ((m : ℚ) * 2 ^ e) = (m : ℚ) * 2 ^ e := by
      rw [habs]
      exact roundPos_exact prec emin m.natAbs e
        (Int.natAbs_pos.mpr hpos.ne') hm he
    unfold roundFl
    rw [if_neg hx.ne', if_pos hx, hex]
    rw [if_neg (not_le.mpr (habs ▸ hovf))]

/-- Exactness of `f32round` on `m * 2 ^ e` with `|m| < 2 ^ 24` and
`-149 ≤ e ≤ 104`. -/
theorem f32round_exactZ (m e : ℤ) (hm : m.natAbs < 2 ^ 24)
    (h1 : -149 ≤ e) (h2 : e ≤ 104) :
    f32round ((m : ℚ) * 2 ^ e) = Fl.finite ((m : ℚ) * 2 ^ e) := by
  apply roundFl_exact 24 (-126) (2 ^ 128) m e hm (by omega)
  have ha : (m.natAbs : ℚ) < 2 ^ 24 := by exact_mod_cast hm
  have hb : (2 : ℚ) ^ e ≤ 2 ^ (104 : ℤ) :=
    zpow_le_zpow_right₀ (by norm_num) h2
  calc (m.natAbs : ℚ) * 2 ^ e ≤ (m.natAbs : ℚ) * 2 ^ (104 : ℤ) :=
        mul_le_mul_of_nonneg_left hb (Nat.cast_nonneg _)
    _ < 2 ^ 24 * 2 ^ (104 : ℤ) :=
        mul_lt_mul_of_pos_right ha (zpow_pos (by norm_num) _)
    _ = 2 ^ 128 := by norm_num

/-- Exactness of `f64round` on `m * 2 ^ e` with `|m| < 2 ^ 53` and
`-1074 ≤ e ≤ 971`. -/
theorem f64round_exactZ (m e : ℤ) (hm : m.natAbs < 2 ^ 53)
    (h1 : -1074 ≤ e) (h2 : e ≤ 971) :
    f64round ((m : ℚ) * 2 ^ e) = Fl.finite ((m : ℚ) * 2 ^ e) := by
  apply roundFl_exact 53 (-1022) (2 ^ 1024) m e hm (by omega)
  have ha : (m.natAbs : ℚ) < 2 ^ 53 := by exact_mod_cast hm
  have hb : (2 : ℚ) ^ e ≤ 2 ^ (971 : ℤ) :=
    zpow_le_zpow_right₀ (by norm_num) h2
  calc (m.natAbs : ℚ) * 2 ^ e ≤ (m.natAbs : ℚ) * 2 ^ (971 : ℤ) :=
        mul_le_mul_of_nonneg_left hb (Nat.cast_nonneg _)
    _ < 2 ^ 53 * 2 ^ (971 : ℤ) :=
        mul_lt_mul_of_pos_right ha (zpow_pos (by norm_num) _)
    _ = 2 ^ 1024 := by norm_num

/-! ### Exact values of the float draws -/

/-- `f32round` is exact on naturals up to `2 ^ 24`. -/
theorem f32round_natCast (k : ℕ) (hk : k ≤ 2 ^ 24) :
    f32round (k : ℚ) = Fl.finite (k : ℚ) := by
  rcases lt_or_eq_of_le hk with hlt | heq
  · have h := f32round_exactZ (k : ℤ) 0 (by simpa using hlt) (by norm_num) (by norm_num)
    simpa using h
  · subst heq
    have h := f32round_exactZ 1 24 (by norm_num) (by norm_num) (by norm_num)
    norm_num at h
    convert h using 2

/-- `f64round` is exact on naturals up to `2 ^ 53`. -/
theorem f64round_natCast (k : ℕ) (hk : k ≤ 2 ^ 53) :
    f64round (k : ℚ) = Fl.finite (k : ℚ) := by
  rcases lt_or_eq_of_le hk with hlt | heq
  · have h := f64round_exactZ (k : ℤ) 0 (by simpa using hlt) (by norm_num) (by norm_num)
    simpa using h
  · subst heq
    have h := f64round_exactZ 1 53 (by norm_num) (by norm_num) (by norm_num)
    norm_num at h
    convert h using 2

/-- The `f32` scale constant is exactly `2 ^ (-24)`. -/
theorem f32scale_eq : f32scale = Fl.finite ((2 : ℚ) ^ (-24 : ℤ)) := by
  unfold f32scale u32ToF32
  rw [Nat.shiftLeft_eq, one_mul, f32round_natCast (2 ^ 24) le_rfl]
  simp only [flDiv]
  rw [if_neg (by norm_num : ¬((2 ^ 24 : ℕ) : ℚ) = 0)]
  have h2 : (1 : ℚ) / ((2 ^ 24 : ℕ) : ℚ) = (2 : ℚ) ^ (-24 : ℤ) := by
    rw [zpow_neg, one_div]
    congr 1
    push_cast
    norm_num
  rw [h2]
  have h := f32round_exactZ 1 (-24) (by norm_num) (by norm_num) (by norm_num)
  simpa using h

/-- The `f64` scale constant is exactly `2 ^ (-53)`. -/
theorem f64scale_eq : f64scale = Fl.finite ((2 : ℚ) ^ (-53 : ℤ)) := by
  unfold f64scale u64ToF64
  rw [Nat.shiftLeft_eq, one_mul, f64round_natCast (2 ^ 53) le_rfl]
  simp only [flDiv]
  rw [if_neg (by norm_num : ¬((2 ^ 53 : ℕ) : ℚ) = 0)]
  have h2 : (1 : ℚ) / ((2 ^ 53 : ℕ) : ℚ) = (2 : ℚ) ^ (-53 : ℤ) := by
    rw [zpow_neg, one_div]
    congr 1
    push_cast
    norm_num
  rw [h2]
  have h := f64round_exactZ 1 (-53) (by norm_num) (by norm_num) (by norm_num)
  simpa using h

/-- `nextU64` outputs a 64-bit value. -/
theorem nextU64_fst_lt (x : Xoshiro) : (nextU64 x).1 < 2 ^ 64 :=
  Nat.mod_lt _ (by norm_num)

/-- The `f32` draw is exactly `k * 2 ^ (-24)` where `k` is the 24 high bits of
the `next_u32` output, and it advances the generator by one step. -/
theorem genF32_eq (x : Xoshiro) :
    genF32 x = (Fl.finite ((((nextU64 x).1 % 2 ^ 32) >>> 8 : ℕ) * (2 : ℚ) ^ (-24 : ℤ)),
      (nextU64 x).2) := by
  rcases hnx : nextU64 x with ⟨v, r'⟩
  unfold genF32 genU32
  rw [hnx]
  have hk : (v % 2 ^ 32) >>> 8 < 2 ^ 24 := by
    rw [Nat.shiftRight_eq_div_pow]
    exact Nat.div_lt_of_lt_mul (by have := Nat.mod_lt v (by norm_num : 0 < 2 ^ 32); omega)
  rw [f32scale_eq]
  show (flMul f32round (Fl.finite ((2 : ℚ) ^ (-24 : ℤ))) (u32ToF32 ((v % 2 ^ 32) >>> 8)), r') = _
  unfold u32ToF32
  rw [f32round_natCast _ hk.le]
  show (f32round ((2 : ℚ) ^ (-24 : ℤ) * (((v % 2 ^ 32) >>> 8 : ℕ) : ℚ)), r') = _
  have h := f32round_exactZ (((v % 2 ^ 32) >>> 8 : ℕ) : ℤ) (-24)
    (by simpa using hk) (by norm_num) (by norm_num)
  rw [mul_comm] at h
  rw [show ((((v % 2 ^ 32) >>> 8 : ℕ) : ℤ) : ℚ) = (((v % 2 ^ 32) >>> 8 : ℕ) : ℚ) from by push_cast; rfl] at h
  rw [h]
  simp [mul_comm]

/-- The `f64` draw is exactly `k * 2 ^ (-53)` where `k` is the 53 high bits of
the `next_u64` output, and it advances the generator by one step. -/
theorem genF64_eq (x : Xoshiro) :
    genF64 x = (Fl.finite (((nextU64 x).1 >>> 11 : ℕ) * (2 : ℚ) ^ (-53 : ℤ)),
      (nextU64 x).2) := by
  rcases hnx : nextU64 x with ⟨v, r'⟩
  have hv : v < 2 ^ 64 := by
    have := nextU64_fst_lt x
    rw [hnx] at this
    exact this
  unfold genF64
  rw [hnx]
  have hk : v >>> 11 < 2 ^ 53 := by
    rw [Nat.shiftRight_eq_div_pow]
    exact Nat.div_lt_of_lt_mul (by omega)
  rw [f64scale_eq]
  show (flMul f64round (Fl.finite ((2 : ℚ) ^ (-53 : ℤ))) (u64ToF64 (v >>> 11)), r') = _
  unfold u64ToF64
  rw [f64round_natCast _ hk.le]
  show (f64round ((2 : ℚ) ^ (-53 : ℤ) * ((v >>> 11 : ℕ) : ℚ)), r') = _
  have h := f64round_exactZ ((v >>> 11 : ℕ) : ℤ) (-53)
    (by simpa using hk) (by norm_num) (by norm_num)
  rw [mul_comm] at h
  rw [show (((v >>> 11 : ℕ) : ℤ) : ℚ) = ((v >>> 11 : ℕ) : ℚ) from by push_cast; rfl] at h
  rw [h]
  simp [mul_comm]

/-- The 24 high bits of a `u32` value. -/
theorem shiftHigh32_lt (v : ℕ) : (v % 2 ^ 32) >>> 8 < 2 ^ 24 := by
  rw [Nat.shiftRight_eq_div_pow]
  exact Nat.div_lt_of_lt_mul (by have := Nat.mod_lt v (by norm_num : 0 < 2 ^ 32); omega)

/-- The 53 high bits of a `u64` value. -/
theorem shiftHigh64_lt (v : ℕ) (hv : v < 2 ^ 64) : v >>> 11 < 2 ^ 53 := by
  rw [Nat.shiftRight_eq_div_pow]
  exact Nat.div_lt_of_lt_mul (by omega)

/-- The product of an `f32` unit draw with `10.0f32` rounds to a value in
`[0, 10)`: the analysis behind `next_u32_range(10, 20)`. -/
theorem f32round_scaled_lt_ten (k : ℕ) (hk : k < 2 ^ 24) :
    ∃ r : ℚ, f32round ((k : ℚ) * 2 ^ (-24 : ℤ) * 10) = Fl.finite r ∧ 0 ≤ r ∧ r < 10 := by
  have hc : (0 : ℚ) < 2 ^ (-24 : ℤ) := zpow_pos (by norm_num) _
  rcases Nat.eq_zero_or_pos k with rfl | hk0
  · refine ⟨0, ?_, le_rfl, by norm_num⟩
    norm_num [f32round, roundFl]
  · set x : ℚ := (k : ℚ) * 2 ^ (-24 : ℤ) * 10 with hxdef
    clear_value x
    have hkq : (0 : ℚ) < k := by exact_mod_cast hk0
    have hx : 0 < x := by
      rw [hxdef]
      exact mul_pos (mul_pos hkq hc) (by norm_num)
    have hcompl : (2 : ℚ) ^ (24 : ℤ) * 2 ^ (-24 : ℤ) = 1 := by
      rw [← zpow_add₀ (by norm_num : (2 : ℚ) ≠ 0)]
      norm_num
    have hkle : (k : ℚ) ≤ 2 ^ (24 : ℤ) - 1 := by
      have h1 : (k : ℚ) + 1 ≤ 2 ^ (24 : ℤ) := by
        have : ((k + 1 : ℕ) : ℚ) ≤ ((2 ^ 24 : ℕ) : ℚ) := by exact_mod_cast hk
        push_cast at this
        calc (k : ℚ) + 1 ≤ (2 : ℚ) ^ (24 : ℕ) := this
          _ = 2 ^ (24 : ℤ) := by rw [← zpow_natCast]; norm_num
      linarith
    have hxle : x ≤ 10 - 10 * 2 ^ (-24 : ℤ) := by
      have h1 : (k : ℚ) * 2 ^ (-24 : ℤ) ≤ (2 ^ (24 : ℤ) - 1) * 2 ^ (-24 : ℤ) :=
        mul_le_mul_of_nonneg_right hkle hc.le
      have h2 : ((2 : ℚ) ^ (24 : ℤ) - 1) * 2 ^ (-24 : ℤ) = 1 - 2 ^ (-24 : ℤ) := by
        rw [sub_mul, hcompl, one_mul]
      rw [hxdef]
      calc (k : ℚ) * 2 ^ (-24 : ℤ) * 10 ≤ (1 - 2 ^ (-24 : ℤ)) * 10 := by
            apply mul_le_mul_of_nonneg_right _ (by norm_num)
            rw [← h2]
            exact h1
        _ = 10 - 10 * 2 ^ (-24 : ℤ) := by ring
    have hx16 : x < (2 : ℚ) ^ (4 : ℤ) := by
      have : (2 : ℚ) ^ (4 : ℤ) = 16 := by norm_num
      rw [this]
      linarith
    have hlog : Int.log 2 x ≤ 3 := by
      have h := (Int.lt_zpow_iff_log_lt (by norm_num) hx).mp hx16
      exact Int.lt_add_one_iff.mp h
    have hE : max (Int.log 2 x) (-126) - 24 ≤ -21 := by
      rcases max_cases (Int.log 2 x) (-126 : ℤ) with ⟨hmax, _⟩ | ⟨hmax, _⟩ <;> omega
    have hup : roundPos 24 (-126) x ≤ x + 2 ^ (-21 : ℤ) := by
      calc roundPos 24 (-126) x ≤ x + 2 ^ (max (Int.log 2 x) (-126) - 24) :=
            roundPos_le 24 (-126) x
        _ ≤ x + 2 ^ (-21 : ℤ) := by
            have := zpow_le_zpow_right₀ (by norm_num : (1 : ℚ) ≤ 2) hE
            linarith
    have h21 : (2 : ℚ) ^ (-21 : ℤ) = 8 * 2 ^ (-24 : ℤ) := by
      have : (2 : ℚ) ^ (-21 : ℤ) = 2 ^ (3 : ℤ) * 2 ^ (-24 : ℤ) := by
        rw [← zpow_add₀ (by norm_num : (2 : ℚ) ≠ 0)]
        norm_num
      rw [this]
      norm_num
    have hlt10 : roundPos 24 (-126) x < 10 := by
      have : x + 2 ^ (-21 : ℤ) < 10 := by
        rw [h21]
        linarith
      linarith
    have hnn : 0 ≤ roundPos 24 (-126) x := roundPos_nonneg 24 (-126) hx.le
    refine ⟨roundPos 24 (-126) x, ?_, hnn, hlt10⟩
    unfold f32round roundFl
    rw [if_neg hx.ne', if_pos hx, if_neg (not_le.mpr (by linarith : roundPos 24 (-126) x < 2 ^ 128))]

/-- `Rng::next_f32` in explicit form. -/
theorem next_f32_eq (r : Rng) :
    r.next_f32 = (Fl.finite ((((nextU64 r.inner).1 % 2 ^ 32) >>> 8 : ℕ) * (2 : ℚ) ^ (-24 : ℤ)),
      ⟨(nextU64 r.inner).2⟩) := by
  unfold Rng.next_f32
  rw [genF32_eq]

/-- `Rng::next_f64` in explicit form. -/
theorem next_f64_eq (r : Rng) :
    r.next_f64 = (Fl.finite (((nextU64 r.inner).1 >>> 11 : ℕ) * (2 : ℚ) ^ (-53 : ℤ)),
      ⟨(nextU64 r.inner).2⟩) := by
  unfold Rng.next_f64
  rw [genF64_eq]

/-- `next_u32_range(10, 20)` always lands in `[10, 20)`. -/
theorem next_u32_range_ten_twenty (r : Rng) :
    10 ≤ (r.next_u32_range 10 20).1 ∧ (r.next_u32_range 10 20).1 < 20 := by
  obtain ⟨rr, hrr, h0, h10⟩ :=
    f32round_scaled_lt_ten (((nextU64 r.inner).1 % 2 ^ 32) >>> 8) (shiftHigh32_lt _)
  have h32 : ((20 + 2 ^ 32 - 10) % 2 ^ 32 : ℕ) = 10 := by norm_num
  have hten : u32ToF32 10 = Fl.finite 10 := by
    unfold u32ToF32
    rw [f32round_natCast 10 (by norm_num)]
    norm_num
  have hfloor0 : 0 ≤ ⌊rr⌋ := Int.floor_nonneg.mpr h0
  have hfloor10 : ⌊rr⌋ < 10 := by
    rw [Int.floor_lt]
    exact_mod_cast h10
  have hcast : f32ToU32 (Fl.finite rr) = ⌊rr⌋.toNat := by
    simp only [f32ToU32, flToUInt, truncQ]
    rw [if_pos h0, if_neg (by omega), if_neg (by omega)]
  have hval : (r.next_u32_range 10 20).1 = (⌊rr⌋.toNat + 10) % 2 ^ 32 := by
    unfold Rng.next_u32_range
    rw [next_f32_eq, h32, hten]
    show (f32ToU32 (f32round _) + 10) % 2 ^ 32 = _
    rw [hrr, hcast]
  rw [hval, Nat.mod_eq_of_lt (by omega)]
  omega

/-- `next_f64_range(-1.0, 1.0)` always lands in `[-1, 1)`. -/
theorem next_f64_range_unit (r : Rng) :
    ∃ q : ℚ, (r.next_f64_range (Fl.finite (-1)) (Fl.finite 1)).1 = Fl.finite q ∧
      -1 ≤ q ∧ q < 1 := by
  set k : ℕ := (nextU64 r.inner).1 >>> 11 with hkdef
  have hk : k < 2 ^ 53 := shiftHigh64_lt _ (nextU64_fst_lt r.inner)
  have hkq : (0 : ℚ) ≤ (k : ℚ) := Nat.cast_nonneg k
  have hkq2 : (k : ℚ) < 2 ^ (53 : ℤ) := by
    calc (k : ℚ) < ((2 ^ 53 : ℕ) : ℚ) := by exact_mod_cast hk
      _ = 2 ^ (53 : ℤ) := by norm_num
  have hsub : flSub f64round (Fl.finite 1) (Fl.finite (-1)) = Fl.finite 2 := by
    unfold flSub flNeg flAdd
    show f64round (1 + -(-1)) = Fl.finite 2
    rw [show ((1 : ℚ) + -(-1)) = ((2 : ℕ) : ℚ) from by norm_num,
      f64round_natCast 2 (by norm_num)]
    norm_num
  have hzpow : (2 : ℚ) ^ (-53 : ℤ) * 2 = 2 ^ (-52 : ℤ) := by
    rw [show ((-52 : ℤ)) = -53 + 1 from by norm_num,
      zpow_add₀ (by norm_num : (2 : ℚ) ≠ 0)]
    norm_num
  have hmul : flMul f64round (Fl.finite ((k : ℚ) * 2 ^ (-53 : ℤ))) (Fl.finite 2) =
      Fl.finite ((k : ℚ) * 2 ^ (-52 : ℤ)) := by
    show f64round ((k : ℚ) * 2 ^ (-53 : ℤ) * 2) = _
    rw [mul_assoc, hzpow]
    have h := f64round_exactZ (k : ℤ) (-52) (by simpa using hk) (by norm_num) (by norm_num)
    rw [show (((k : ℕ) : ℤ) : ℚ) = ((k : ℕ) : ℚ) from by push_cast; rfl] at h
    exact h
  have hm : ((k : ℤ) - 2 ^ 52 : ℤ).natAbs < 2 ^ 53 := by omega
  have hmq : (((k : ℤ) - 2 ^ 52 : ℤ) : ℚ) * 2 ^ (-52 : ℤ) = (k : ℚ) * 2 ^ (-52 : ℤ) + -1 := by
    have h52 : (4503599627370496 : ℚ) * 2 ^ (-52 : ℤ) = 1 := by
      rw [show (4503599627370496 : ℚ) = 2 ^ (52 : ℤ) from by norm_num,
        ← zpow_add₀ (by norm_num : (2 : ℚ) ≠ 0)]
      norm_num
    push_cast
    rw [sub_mul, h52]
    ring
  have hadd : flAdd f64round (Fl.finite ((k : ℚ) * 2 ^ (-52 : ℤ))) (Fl.finite (-1)) =
      Fl.finite ((k : ℚ) * 2 ^ (-52 : ℤ) + -1) := by
    show f64round ((k : ℚ) * 2 ^ (-52 : ℤ) + -1) = _
    rw [← hmq]
    exact f64round_exactZ ((k : ℤ) - 2 ^ 52) (-52) hm (by norm_num) (by norm_num)
  refine ⟨(k : ℚ) * 2 ^ (-52 : ℤ) + -1, ?_, ?_, ?_⟩
  · unfold Rng.next_f64_range
    rw [next_f64_eq]
    dsimp only
    rw [← hkdef, hsub, hmul, hadd]
  · have : (0 : ℚ) ≤ (k : ℚ) * 2 ^ (-52 : ℤ) :=
      mul_nonneg hkq (zpow_pos (by norm_num) _).le
    linarith
  · have h1 : (k : ℚ) * 2 ^ (-52 : ℤ) < 2 ^ (53 : ℤ) * 2 ^ (-52 : ℤ) :=
      mul_lt_mul_of_pos_right hkq2 (zpow_pos (by norm_num) _)
    have h2 : (2 : ℚ) ^ (53 : ℤ) * 2 ^ (-52 : ℤ) = 2 := by
      rw [← zpow_add₀ (by norm_num : (2 : ℚ) ≠ 0)]
      norm_num
    rw [h2] at h1
    linarith

/-! ### Shared facts about derivation and the plugin -/

/-- `SplitMix64` seeded with `0` does not emit four zero words, so the
all-zero-seed fallback of `seed_from_u64` terminates. -/
theorem splitmixWords_zero_ne_zero :
    ¬((splitmixWords 0).1 = 0 ∧ (splitmixWords 0).2.1 = 0 ∧
      (splitmixWords 0).2.2.1 = 0 ∧ (splitmixWords 0).2.2.2 = 0) := by
  decide

/-- `from_rng` on a xoshiro parent always succeeds, with value `fromRng`. -/
theorem tryFromRng_eq (r : Xoshiro) : tryFromRng r = Except.ok (fromRng r) := by
  rcases hfw : fillWords r with ⟨⟨a, b, c, d⟩, r4⟩
  unfold tryFromRng tryFillWords fromRng
  rw [hfw]

/-- `Rng::from_world` with the root present: the handle is a pure function of
the root and the root resource is returned unchanged. -/
theorem from_world_some (rr : RootRng) (e : ℕ × ℕ × ℕ × ℕ) :
    Rng.from_world (some rr) e = (some ⟨fromRng rr.rng⟩, some rr) := by
  simp only [Rng.from_world]
  rw [tryFromRng_eq]

/-- A `derive` step appends a handle derived from the current root and leaves
the root itself untouched. -/
theorem stepOp_derive (st : RunState) :
    stepOp st Op.derive = (⟨st.root, st.handles ++ [⟨fromRng st.root.rng⟩]⟩, none) := by
  unfold stepOp
  rw [from_world_some]
  rfl

/-! ### The claims -/

/-- C1 (counterexample): at the concrete root seeded from `42`, a derivation
through `Rng::from_world` leaves the root's generator state equal to its
state before the call, two successive derivations append two identical
children, and the two children's first draws are equal — contradicting the
claim that the root state differs after a derivation and that the two
children's first draws differ. -/
theorem claim_C1_counterexample :
    (stepOp ⟨⟨seedFromU64 42⟩, []⟩ Op.derive).1.root = ⟨seedFromU64 42⟩ ∧
    (stepOp (stepOp ⟨⟨seedFromU64 42⟩, []⟩ Op.derive).1 Op.derive).1.handles =
      [⟨fromRng (seedFromU64 42)⟩, ⟨fromRng (seedFromU64 42)⟩] ∧
    ((⟨fromRng (seedFromU64 42)⟩ : Rng).next_u32).1 =
      ((⟨fromRng (seedFromU64 42)⟩ : Rng).next_u32).1 := by
  refine ⟨?_, ?_, rfl⟩
  · rw [stepOp_derive]
  · rw [stepOp_derive, stepOp_derive]
    rfl

/-- C1 (amended): deriving a per-consumer handle does not advance the root's
state — `from_world` clones the root behind a shared borrow, so the root
resource after the call equals the root before it, the produced handle is a
pure function of the root state, and two successive derivations on the same
root yield two identical children. -/
theorem claim_C1_amended (rr : RootRng) (e e' : ℕ × ℕ × ℕ × ℕ) :
    (Rng.from_world (some rr) e).2 = some rr ∧
    (Rng.from_world (some rr) e).1 = some ⟨fromRng rr.rng⟩ ∧
    (Rng.from_world (some rr) e).1 = (Rng.from_world (some rr) e').1 ∧
    (stepOp ⟨rr, []⟩ Op.derive).1.root = rr ∧
    (stepOp (stepOp ⟨rr, []⟩ Op.derive).1 Op.derive).1.handles =
      [⟨fromRng rr.rng⟩, ⟨fromRng rr.rng⟩] := by
  refine ⟨?_, ?_, ?_, ?_, ?_⟩
  · rw [from_world_some]
  · rw [from_world_some]
  · rw [from_world_some, from_world_some]
  · rw [stepOp_derive]
  · rw [stepOp_derive, stepOp_derive]
    rfl

/-- C3: `next_u32_range(10, 20)` returns a value in `[10, 20)` and
`next_f64_range(-1.0, 1.0)` returns a value in `[-1.0, 1.0)`, for every
generator state. -/
theorem claim_C3_range_bounds (r : Rng) :
    (10 ≤ (r.next_u32_range 10 20).1 ∧ (r.next_u32_range 10 20).1 < 20) ∧
    ∃ q : ℚ, (r.next_f64_range (Fl.finite (-1)) (Fl.finite 1)).1 = Fl.finite q ∧
      -1 ≤ q ∧ q < 1 :=
  ⟨next_u32_range_ten_twenty r, next_f64_range_unit r⟩

/-- C4: `next_f32()` and `next_f64()` return finite values in `[0, 1)` for
every generator state. -/
theorem claim_C4_unit_interval (r : Rng) :
    (∃ q : ℚ, (r.next_f32).1 = Fl.finite q ∧ 0 ≤ q ∧ q < 1) ∧
    (∃ q : ℚ, (r.next_f64).1 = Fl.finite q ∧ 0 ≤ q ∧ q < 1) := by
  constructor
  · refine ⟨((((nextU64 r.inner).1 % 2 ^ 32) >>> 8 : ℕ) : ℚ) * 2 ^ (-24 : ℤ), ?_, ?_, ?_⟩
    · rw [next_f32_eq]
    · exact mul_nonneg (Nat.cast_nonneg _) (zpow_pos (by norm_num : (0 : ℚ) < 2) _).le
    · have h1 : ((((nextU64 r.inner).1 % 2 ^ 32) >>> 8 : ℕ) : ℚ) < 2 ^ (24 : ℤ) := by
        calc ((((nextU64 r.inner).1 % 2 ^ 32) >>> 8 : ℕ) : ℚ) < ((2 ^ 24 : ℕ) : ℚ) := by
              exact_mod_cast shiftHigh32_lt (nextU64 r.inner).1
          _ = 2 ^ (24 : ℤ) := by norm_num
      have h3 := mul_lt_mul_of_pos_right h1 (zpow_pos (by norm_num : (0 : ℚ) < 2) (-24 : ℤ))
      rw [← zpow_add₀ (by norm_num : (2 : ℚ) ≠ 0),
        show ((24 : ℤ) + -24) = 0 from by norm_num, zpow_zero] at h3
      exact h3
  · refine ⟨(((nextU64 r.inner).1 >>> 11 : ℕ) : ℚ) * 2 ^ (-53 : ℤ), ?_, ?_, ?_⟩
    · rw [next_f64_eq]
    · exact mul_nonneg (Nat.cast_nonneg _) (zpow_pos (by norm_num : (0 : ℚ) < 2) _).le
    · have h1 : (((nextU64 r.inner).1 >>> 11 : ℕ) : ℚ) < 2 ^ (53 : ℤ) := by
        calc (((nextU64 r.inner).1 >>> 11 : ℕ) : ℚ) < ((2 ^ 53 : ℕ) : ℚ) := by
              exact_mod_cast shiftHigh64_lt _ (nextU64_fst_lt r.inner)
          _ = 2 ^ (53 : ℤ) := by norm_num
      have h3 := mul_lt_mul_of_pos_right h1 (zpow_pos (by norm_num : (0 : ℚ) < 2) (-53 : ℤ))
      rw [← zpow_add₀ (by norm_num : (2 : ℚ) ≠ 0),
        show ((53 : ℤ) + -53) = 0 from by norm_num, zpow_zero] at h3
      exact h3

/-- C6: with a numeric seed, the constructed root generator state does not
depend on the entropy source, and two independently constructed roots yield
identical outputs under any common sequence of derivations and draws. -/
theorem claim_C6_determinism (n : ℕ) (e1 e2 : ℕ × ℕ × ℕ × ℕ) (ops : List Op) :
    buildRoot (RngPlugin.fromU64 n) e1 = buildRoot (RngPlugin.fromU64 n) e2 ∧
    runOps ⟨buildRoot (RngPlugin.fromU64 n) e1, []⟩ ops =
      runOps ⟨buildRoot (RngPlugin.fromU64 n) e2, []⟩ ops :=
  ⟨rfl, rfl⟩

/-- C7: equal seed strings produce equal root generator states, independently
of the entropy source — seeding from text is a pure function of the string. -/
theorem claim_C7_text_seeding (s1 s2 : String) (h : s1 = s2) (e1 e2 : ℕ × ℕ × ℕ × ℕ) :
    buildRoot ⟨some (Seed.String s1)⟩ e1 = buildRoot ⟨some (Seed.String s2)⟩ e2 := by
  rw [h]
  rfl

/-- C7 witness. -/
theorem claim_C7_witness :
    "bevy" = "bevy" ∧
    buildRoot ⟨some (Seed.String "bevy")⟩ (0, 0, 0, 0) =
      buildRoot ⟨some (Seed.String "bevy")⟩ (1, 2, 3, 4) :=
  ⟨rfl, claim_C7_text_seeding "bevy" "bevy" rfl (0, 0, 0, 0) (1, 2, 3, 4)⟩

/-- C8: the plugin built from the empty string carries `Some(Seed::String(""))`
— distinct from the no-seed default — and its root is the deterministic
text-seeded generator, independent of the entropy source. -/
theorem claim_C8_empty_string (e e' : ℕ × ℕ × ℕ × ℕ) :
    RngPlugin.fromStr "" = ⟨some (Seed.String "")⟩ ∧
    RngPlugin.fromStr "" ≠ RngPlugin.default ∧
    buildRoot (RngPlugin.fromStr "") e = ⟨seederMakeRng ""⟩ ∧
    buildRoot (RngPlugin.fromStr "") e = buildRoot (RngPlugin.fromStr "") e' := by
  refine ⟨rfl, ?_, rfl, rfl⟩
  simp [RngPlugin.fromStr, RngPlugin.default]

/-- C9: if the `RootRng` resource is absent, `Rng::from_world` does not fail:
it returns the entropy-seeded handle. -/
theorem claim_C9_missing_root (e : ℕ × ℕ × ℕ × ℕ) :
    Rng.from_world none e = (some ⟨fromEntropy e⟩, none) ∧
    (Rng.from_world none e).1.isSome :=
  ⟨rfl, rfl⟩

/-- C10: the `expect("failed to create rng")` branch is dead: `from_rng` on a
xoshiro parent always returns `Ok`, so `from_world` with the root present
always produces a handle and never panics. -/
theorem claim_C10_no_panic (rr : RootRng) (e : ℕ × ℕ × ℕ × ℕ) :
    tryFromRng rr.rng = Except.ok (fromRng rr.rng) ∧
    Rng.from_world (some rr) e = (some ⟨fromRng rr.rng⟩, some rr) :=
  ⟨tryFromRng_eq rr.rng, from_world_some rr e⟩

/-- C2: `next_u32_range(min, max)` is exactly the truncated product of the
single `[0,1)` `f32` draw with the (wrapping) difference `max - min`, plus
`min` (in `u32` arithmetic); `next_u64_range` is the analogous `f64`
expression; and each call consumes exactly one floating-point draw (one
generator step). -/
theorem claim_C2_range_formula (r : Rng) (mn mx : ℕ) :
    (r.next_u32_range mn mx).1 =
      (f32ToU32 (flMul f32round (r.next_f32).1
        (u32ToF32 ((mx + 2 ^ 32 - mn) % 2 ^ 32))) + mn) % 2 ^ 32 ∧
    (r.next_u32_range mn mx).2 = (r.next_f32).2 ∧
    (r.next_f32).2 = ⟨(nextU64 r.inner).2⟩ ∧
    (r.next_u64_range mn mx).1 =
      (f64ToU64 (flMul f64round (r.next_f64).1
        (u64ToF64 ((mx + 2 ^ 64 - mn) % 2 ^ 64))) + mn) % 2 ^ 64 ∧
    (r.next_u64_range mn mx).2 = (r.next_f64).2 ∧
    (r.next_f64).2 = ⟨(nextU64 r.inner).2⟩ := by
  refine ⟨?_, ?_, ?_, ?_, ?_, ?_⟩
  · unfold Rng.next_u32_range
    rw [next_f32_eq]
  · unfold Rng.next_u32_range
    rw [next_f32_eq]
  · rw [next_f32_eq]
  · unfold Rng.next_u64_range
    rw [next_f64_eq]
  · unfold Rng.next_u64_range
    rw [next_f64_eq]
  · rw [next_f64_eq]

/-- C5: with `max < min` no range call fails or panics: the `u32`/`u64`
subtraction underflows and wraps modulo `2 ^ 32` / `2 ^ 64`, and the result
still follows the scaling formula applied to the wrapped difference. -/
theorem claim_C5_underflow_total (r : Rng) (a32 b32 a64 b64 : ℕ)
    (h1 : b32 < a32) (h2 : a32 < 2 ^ 32) (h3 : b64 < a64) (h4 : a64 < 2 ^ 64) :
    (r.next_u32_range a32 b32).1 =
      (f32ToU32 (flMul f32round (r.next_f32).1
        (u32ToF32 (2 ^ 32 - (a32 - b32)))) + a32) % 2 ^ 32 ∧
    (r.next_u64_range a64 b64).1 =
      (f64ToU64 (flMul f64round (r.next_f64).1
        (u64ToF64 (2 ^ 64 - (a64 - b64)))) + a64) % 2 ^ 64 := by
  have e32 : (b32 + 2 ^ 32 - a32) % 2 ^ 32 = 2 ^ 32 - (a32 - b32) := by omega
  have e64 : (b64 + 2 ^ 64 - a64) % 2 ^ 64 = 2 ^ 64 - (a64 - b64) := by omega
  constructor
  · unfold Rng.next_u32_range
    rw [next_f32_eq, e32]
  · unfold Rng.next_u64_range
    rw [next_f64_eq, e64]

/-- C5 witness. -/
theorem claim_C5_witness :
    (3 : ℕ) < 5 ∧ (5 : ℕ) < 2 ^ 32 ∧ (7 : ℕ) < 11 ∧ (11 : ℕ) < 2 ^ 64 ∧
    (((Rng.mk ⟨1, 2, 3, 4⟩).next_u32_range 5 3).1 =
      (f32ToU32 (flMul f32round ((Rng.mk ⟨1, 2, 3, 4⟩).next_f32).1
        (u32ToF32 (2 ^ 32 - (5 - 3)))) + 5) % 2 ^ 32 ∧
    ((Rng.mk ⟨1, 2, 3, 4⟩).next_u64_range 11 7).1 =
      (f64ToU64 (flMul f64round ((Rng.mk ⟨1, 2, 3, 4⟩).next_f64).1
        (u64ToF64 (2 ^ 64 - (11 - 7)))) + 11) % 2 ^ 64) :=
  ⟨by norm_num, by norm_num, by norm_num, by norm_num,
    claim_C5_underflow_total (Rng.mk ⟨1, 2, 3, 4⟩) 5 3 11 7
      (by norm_num) (by norm_num) (by norm_num) (by norm_num)⟩

end BevyRng
